import Mathlib

/-!
Shallow embedding of the Music Playlist Manager (`main.c`, single C file).

Modelling conventions:
* C strings are NUL-terminated `char` arrays; we model them as `List Char`
  (a C string is exactly a NUL-free character list, and no operation in the
  program inspects bytes beyond the terminator).
* The C `int` duration is modelled as a mathematical `Int`; the program's
  arithmetic on it (printing with `%d`, `atoi`, subtraction in the duration
  comparator) is modelled exactly, without the 32-bit wrap that C leaves
  undefined on overflow.
* The fixed 1024-byte line/field buffers (`MAX_LINE`) bound only the sizes
  the interactive program can process; they are not modelled, so the
  embedding describes the algorithms on inputs of any length.
* `rand()` is modelled as an oracle `Nat → Nat` giving the value drawn at
  each loop index of the Fisher-Yates loop; file I/O success is modelled by
  the `Bool` component of the load result, as in the C return value.
-/

namespace PlaylistC

/-- The `Track` struct (main.c lines 25-30). -/
structure Track where
  title : List Char
  artist : List Char
  album : List Char
  duration : Int

deriving instance DecidableEq, Inhabited for Track

/-- `add_track` (main.c lines 95-102): appends a track at the end of the
dynamic array. -/
def add_track (pl : List Track) (t : Track) : List Track := pl ++ [t]

/-- `remove_track_at` (main.c lines 103-108): out-of-range index is a no-op;
otherwise the element is freed and the suffix shifted left by one. -/
def remove_track_at (pl : List Track) (idx : Nat) : List Track :=
  if idx ≥ pl.length then pl else pl.eraseIdx idx

/-! ### Character helpers (`ctype.h` in the "C" locale, ASCII) -/

/-- `isspace` in the C locale. -/
def isSpaceChar (c : Char) : Bool :=
  c = ' ' || c = '\t' || c = '\n' || c = '\x0b' || c = '\x0c' || c = '\r'

/-- `tolower` in the C locale: only ASCII `A`-`Z` change. -/
def toLowerChar (c : Char) : Char :=
  if 'A' ≤ c ∧ c ≤ 'Z' then Char.ofNat (c.toNat + 32) else c

/-- `str_tolower_copy` (main.c lines 63-67). -/
def str_tolower_copy (s : List Char) : List Char := s.map toLowerChar

/-- `strstr(h, n) != NULL`: `n` occurs as a contiguous substring of `h`
(the empty needle matches everything, as `strstr` returns `h`). -/
def strstrFound (h n : List Char) : Bool := decide (n <:+: h)

/-! ### `atoi` and `printf("%d", ·)` -/

/-- `isdigit` in the C locale: ASCII `0`-`9` (codes 48-57). -/
def isDigitChar (c : Char) : Bool := decide (48 ≤ c.toNat ∧ c.toNat ≤ 57)

/-- Digit-accumulation loop of `atoi`: consume decimal digits, stop at the
first non-digit. -/
def atoiDigits : Nat → List Char → Nat
  | acc, [] => acc
  | acc, c :: cs => if isDigitChar c then atoiDigits (10 * acc + (c.toNat - 48)) cs else acc

/-- C `atoi`: skip leading whitespace, an optional single sign, then digits;
yields 0 when no digits follow. -/
def atoi (s : List Char) : Int :=
  match s.dropWhile isSpaceChar with
  | [] => 0
  | c :: rest =>
    if c = '-' then -(atoiDigits 0 rest : Int)
    else if c = '+' then (atoiDigits 0 rest : Int)
    else (atoiDigits 0 (c :: rest) : Int)

/-- Decimal digit character for a value in `[0, 9]`. -/
def digitChar : Nat → Char
  | 0 => '0'
  | 1 => '1'
  | 2 => '2'
  | 3 => '3'
  | 4 => '4'
  | 5 => '5'
  | 6 => '6'
  | 7 => '7'
  | 8 => '8'
  | _ => '9'

/-- Decimal rendering of a natural number, most significant digit first,
with an explicit fuel argument (any fuel above the value suffices, since the
value shrinks by a factor 10 at each step). -/
def natReprRec : Nat → Nat → List Char
  | 0, _ => []
  | fuel + 1, n =>
    if n < 10 then [digitChar n] else natReprRec fuel (n / 10) ++ [digitChar (n % 10)]

/-- Decimal rendering of a natural number, most significant digit first
(the digits `printf("%d", n)` emits for `n ≥ 0`). -/
def natRepr (n : Nat) : List Char := natReprRec (n + 1) n

/-- `printf("%d", d)` for an `int` value `d`. -/
def intRepr (d : Int) : List Char :=
  if d < 0 then '-' :: natRepr d.natAbs else natRepr d.natAbs

/-! ### CSV codec (main.c lines 110-185) -/

/-- Body written inside the quotes by `csv_escape_field`: every `"` is
doubled, all other characters are copied. -/
def escBody (s : List Char) : List Char :=
  s.flatMap fun c => if c = '"' then ['"', '"'] else [c]

/-- `csv_escape_field` (main.c lines 111-123): a field containing a comma or
a quote (`strchr` finds the character) is wrapped in quotes with internal
quotes doubled; otherwise it is written literally. -/
def csv_escape_field (s : List Char) : List Char :=
  if ',' ∈ s ∨ '"' ∈ s then '"' :: escBody s ++ ['"'] else s

/-- The quoted-field scan loop of `csv_read_field` (main.c lines 130-134):
after the opening quote, `""` yields a literal `"`, a lone `"` closes the
field, and running off the end also closes it.  Returns the field text and
the unconsumed remainder (starting right after the closing quote). -/
def readQuotedBody : List Char → List Char × List Char
  | [] => ([], [])
  | c :: rest =>
    if c = '"' then
      match rest with
      | [] => ([], [])
      | c2 :: rest2 =>
        if c2 = '"' then
          let p := readQuotedBody rest2
          ('"' :: p.1, p.2)
        else ([], rest)
    else
      let p := readQuotedBody rest
      (c :: p.1, p.2)

/-- `while (*s && *s != ',') s++; if (*s == ',') s++;` (main.c lines 135-136):
discard up to and including the next comma. -/
def dropToComma : List Char → List Char
  | [] => []
  | c :: rest => if c = ',' then rest else dropToComma rest

/-- Predicate for the unquoted-field scan: stop at a comma. -/
def notComma (c : Char) : Bool := decide (c ≠ ',')

/-- `csv_read_field` (main.c lines 124-144).  The C function communicates
"no more input" by a NULL cursor; since it treats NULL and the empty string
identically (both yield an empty field and a NULL next cursor), the state is
modelled as a plain `List Char` with `[]` standing for both. -/
def csv_read_field : List Char → List Char × List Char
  | [] => ([], [])
  | c :: rest =>
    if c = '"' then
      let p := readQuotedBody rest
      (p.1, dropToComma p.2)
    else
      let t := (c :: rest).takeWhile notComma
      let r := (c :: rest).dropWhile notComma
      (t, if r = [] then [] else r.tail)

/-- The header line written by `save_playlist_csv` (main.c line 151). -/
def headerChars : List Char := "title,artist,album,duration_seconds".data

/-- One data line of `save_playlist_csv` (main.c lines 152-156): three
escaped text fields and the decimal duration, comma-separated. -/
def trackLine (t : Track) : List Char :=
  csv_escape_field t.title ++
    (',' :: (csv_escape_field t.artist ++
      (',' :: (csv_escape_field t.album ++ (',' :: intRepr t.duration)))))

/-- `save_playlist_csv` (main.c lines 147-160), as the text written to the
file: the header line then one line per track, each ended by a newline.
(The C function additionally returns 0 when `fopen` fails; file-system
failure is outside the embedding.) -/
def save_playlist_csv (pl : List Track) : List Char :=
  headerChars ++ '\n' :: pl.flatMap fun t => trackLine t ++ ['\n']

/-- The lines `fgets` delivers for a text, with each line's trailing newline
already stripped (main.c line 173): split at `'\n'`; a final fragment
without a newline is still a line; a trailing newline does not create an
extra empty line. -/
def lineSplit : List Char → List (List Char)
  | [] => []
  | c :: t =>
    if c = '\n' then [] :: lineSplit t
    else
      match lineSplit t with
      | [] => [[c]]
      | l :: ls => (c :: l) :: ls

/-- Header sniff of `load_playlist_csv` (main.c line 167): the first line is
a header iff it contains both `"title"` and `"artist"` as substrings. -/
def isHeaderLine (l : List Char) : Bool :=
  strstrFound l ("title".data) && strstrFound l ("artist".data)

/-- Per-line record parsing of `load_playlist_csv` (main.c lines 174-180):
read four fields, parse the duration with `atoi`, and skip the record when
the first field is empty. -/
def parseLine (l : List Char) : Option Track :=
  let p1 := csv_read_field l
  let p2 := csv_read_field p1.2
  let p3 := csv_read_field p2.2
  let p4 := csv_read_field p3.2
  if p1.1 = [] then none else some ⟨p1.1, p2.1, p3.1, atoi p4.1⟩

/-- The tracks decoded from a list of data lines, in file order. -/
def decodeBody (body : List (List Char)) : List Track :=
  body.filterMap parseLine

/-- `load_playlist_csv` (main.c lines 161-185) on the text of an opened
file: empty text makes the first `fgets` fail and the function return 0
(failure, collection untouched); otherwise the first line is skipped iff it
is a header, every remaining line is parsed, and each record with a
nonempty first field is appended to the existing playlist. -/
def load_playlist_csv (pl : List Track) (text : List Char) : Bool × List Track :=
  match lineSplit text with
  | [] => (false, pl)
  | l :: rest =>
    (true, pl ++ decodeBody (if isHeaderLine l then rest else l :: rest))

/-! ### Search (main.c lines 200-214) -/

/-- The match test of `search_playlist` for one track: the lowered term
occurs in the lowered title, artist or album (`strstr` OR-chain,
main.c line 207). -/
def trackMatches (t : Track) (low : List Char) : Bool :=
  strstrFound (str_tolower_copy t.title) low ||
  strstrFound (str_tolower_copy t.artist) low ||
  strstrFound (str_tolower_copy t.album) low

/-- `search_playlist` (main.c lines 200-214): the tracks printed, with their
zero-based positions, in playlist order. -/
def search_playlist (pl : List Track) (term : List Char) : List (Nat × Track) :=
  pl.enum.filter fun p => trackMatches p.2 (str_tolower_copy term)

/-! ### Sorting by duration (main.c lines 239-242 and 334) -/

/-- `cmp_duration` (main.c lines 239-242): integer subtraction of durations. -/
def cmp_duration (a b : Track) : Int := a.duration - b.duration

/-- The order induced by `cmp_duration`: `a` may precede `b` iff the
comparator is non-positive. -/
def durLE (a b : Track) : Prop := cmp_duration a b ≤ 0

instance : DecidableRel durLE :=
  fun a b => inferInstanceAs (Decidable (cmp_duration a b ≤ 0))

/-- `qsort(items, size, sizeof(Track), cmp_duration)` (main.c line 334):
`qsort` is an unspecified comparison sort; it is modelled as a sort over the
order induced by `cmp_duration`. -/
def sortByDuration (pl : List Track) : List Track :=
  List.insertionSort durLE pl

/-! ### Shuffle (main.c lines 217-226) -/

/-- The body swap `tmp = items[i]; items[i] = items[j]; items[j] = tmp;`
(main.c lines 222-224), guarded so it is total on lists. -/
def listSwap (l : List Track) (i j : Nat) : List Track :=
  match l[i]?, l[j]? with
  | some a, some b => (l.set i b).set j a
  | _, _ => l

/-- The Fisher-Yates loop `for (i = size-1; i > 0; --i)` (main.c lines
220-225), with `randv i` the value `rand()` returns at loop index `i`:
swap position `i` with position `randv i % (i + 1)`. -/
def shuffleGo (randv : Nat → Nat) : Nat → List Track → List Track
  | 0, pl => pl
  | i + 1, pl => shuffleGo randv i (listSwap pl (i + 1) (randv (i + 1) % (i + 2)))

/-- `shuffle_playlist` (main.c lines 217-226): no-op below size 2, else the
Fisher-Yates loop from the last index down to 1. -/
def shuffle_playlist (randv : Nat → Nat) (pl : List Track) : List Track :=
  if pl.length < 2 then pl else shuffleGo randv (pl.length - 1) pl

/-! ## Theorems -/

/-! ### Decimal parse/print round-trip -/

lemma digitChar_digit (n : Nat) : isDigitChar (digitChar n) = true := by
  unfold digitChar
  split <;> decide

lemma digitChar_val (n : Nat) (h : n < 10) : (digitChar n).toNat - 48 = n := by
  unfold digitChar
  split <;> simp_all <;> omega

lemma natReprRec_fuel_irrel : ∀ fuel : Nat, ∀ n : Nat, n < fuel →
    ∀ fuel' : Nat, n < fuel' → natReprRec fuel n = natReprRec fuel' n := by
  intro fuel
  induction fuel with
  | zero => omega
  | succ f ih =>
    intro n hn fuel' hn'
    rcases fuel' with _ | f'
    · omega
    · simp only [natReprRec]
      by_cases h10 : n < 10
      · rw [if_pos h10, if_pos h10]
      · rw [if_neg h10, if_neg h10]
        rw [ih (n / 10) (by omega) f' (by omega)]

lemma natReprRec_correct (fuel n : Nat) (h : n < fuel) : natReprRec fuel n = natRepr n :=
  natReprRec_fuel_irrel fuel n h (n + 1) (by omega)

lemma natRepr_unfold (n : Nat) :
    natRepr n = if n < 10 then [digitChar n] else natRepr (n / 10) ++ [digitChar (n % 10)] := by
  have h1 : natRepr n = natReprRec (n + 1) n := rfl
  rw [h1]
  show (if n < 10 then [digitChar n] else natReprRec n (n / 10) ++ [digitChar (n % 10)]) = _
  by_cases h10 : n < 10
  · rw [if_pos h10, if_pos h10]
  · rw [if_neg h10, if_neg h10]
    rw [natReprRec_correct n (n / 10) (by omega)]

lemma natRepr_ne_nil (n : Nat) : natRepr n ≠ [] := by
  rw [natRepr_unfold]
  split
  · simp
  · simp

lemma natRepr_all_digit (n : Nat) : ∀ c ∈ natRepr n, isDigitChar c = true := by
  induction n using Nat.strong_induction_on with
  | _ n ih =>
    rw [natRepr_unfold]
    split
    · intro c hc
      simp at hc
      subst hc
      exact digitChar_digit n
    · intro c hc
      rw [List.mem_append] at hc
      rcases hc with hc | hc
      · exact ih (n / 10) (Nat.div_lt_self (by omega) (by omega)) c hc
      · simp at hc
        subst hc
        exact digitChar_digit (n % 10)

lemma atoiDigits_append (xs ys : List Char) (acc : Nat)
    (h : ∀ c ∈ xs, isDigitChar c = true) :
    atoiDigits acc (xs ++ ys) = atoiDigits (atoiDigits acc xs) ys := by
  induction xs generalizing acc with
  | nil => rfl
  | cons c cs ih =>
    have hc : isDigitChar c = true := h c (by simp)
    simp only [List.cons_append, atoiDigits, hc, if_pos]
    exact ih _ fun d hd => h d (by simp [hd])

lemma atoiDigits_natRepr (n : Nat) : ∀ acc : Nat,
    atoiDigits acc (natRepr n) = acc * 10 ^ (natRepr n).length + n := by
  induction n using Nat.strong_induction_on with
  | _ n ih =>
    intro acc
    rw [natRepr_unfold]
    split
    · simp only [atoiDigits, digitChar_digit, if_pos, List.length_cons, List.length_nil]
      rw [digitChar_val n (by omega)]
      simp [atoiDigits]
      ring
    · rw [atoiDigits_append _ _ _ (natRepr_all_digit (n / 10))]
      rw [ih (n / 10) (Nat.div_lt_self (by omega) (by omega)) acc]
      simp only [atoiDigits, digitChar_digit, if_pos]
      rw [digitChar_val (n % 10) (by omega)]
      simp only [List.length_append, List.length_cons, List.length_nil]
      have hdm : 10 * (n / 10) + n % 10 = n := Nat.div_add_mod n 10
      rw [pow_succ, ← Nat.mul_assoc]
      generalize acc * 10 ^ (natRepr (n / 10)).length = A
      omega

lemma digit_not_space (c : Char) (h : isDigitChar c = true) : isSpaceChar c = false := by
  unfold isSpaceChar
  simp only [Bool.or_eq_false_iff, decide_eq_false_iff_not]
  and_intros <;> (intro he; subst he; revert h; decide)

lemma digit_ne_chars (c : Char) (h : isDigitChar c = true) :
    c ≠ '-' ∧ c ≠ '+' ∧ c ≠ ',' ∧ c ≠ '"' ∧ c ≠ '\n' := by
  and_intros <;> (intro he; subst he; revert h; decide)

lemma atoi_all_digit (s : List Char) (hne : s ≠ []) (h : ∀ c ∈ s, isDigitChar c = true) :
    atoi s = (atoiDigits 0 s : Int) := by
  rcases s with _ | ⟨c, cs⟩
  · exact absurd rfl hne
  · have hc := h c (by simp)
    unfold atoi
    simp only [List.dropWhile_cons, digit_not_space c hc, Bool.false_eq_true, if_false]
    rw [if_neg (digit_ne_chars c hc).1, if_neg (digit_ne_chars c hc).2.1]

lemma atoi_natRepr (n : Nat) : atoi (natRepr n) = (n : Int) := by
  rw [atoi_all_digit _ (natRepr_ne_nil _) (natRepr_all_digit _), atoiDigits_natRepr n 0]
  simp

lemma atoi_intRepr (d : Int) : atoi (intRepr d) = d := by
  unfold intRepr
  split
  · rename_i hneg
    unfold atoi
    have hsp : isSpaceChar '-' = false := by decide
    simp only [List.dropWhile_cons, hsp, Bool.false_eq_true, if_false]
    rw [if_pos trivial]
    rw [atoiDigits_natRepr d.natAbs 0]
    simp only [Nat.zero_mul, Nat.zero_add]
    omega
  · rename_i hpos
    rw [atoi_natRepr]
    omega

/-! ### CSV field round-trip -/

lemma readQuotedBody_escBody (s tl : List Char) (h : tl.head? ≠ some '"') :
    readQuotedBody (escBody s ++ '"' :: tl) = (s, tl) := by
  induction s with
  | nil =>
    simp only [escBody, List.flatMap_nil, List.nil_append]
    unfold readQuotedBody
    rw [if_pos rfl]
    rcases tl with _ | ⟨c2, r2⟩
    · rfl
    · have hc2 : c2 ≠ '"' := by
        intro he
        subst he
        exact h rfl
      simp [hc2]
  | cons c s' ih =>
    by_cases hc : c = '"'
    · subst hc
      have : escBody ('"' :: s') ++ '"' :: tl = '"' :: '"' :: (escBody s' ++ '"' :: tl) := by
        simp [escBody]
      rw [this]
      unfold readQuotedBody
      rw [if_pos rfl]
      simp [ih]
    · have : escBody (c :: s') ++ '"' :: tl = c :: (escBody s' ++ '"' :: tl) := by
        simp [escBody, hc]
      rw [this]
      unfold readQuotedBody
      rw [if_neg hc]
      rw [ih]

lemma takeWhile_clean_append (s : List Char) (x : Char) (r : List Char) (p : Char → Bool)
    (hs : ∀ c ∈ s, p c = true) (hx : p x = false) :
    (s ++ x :: r).takeWhile p = s ∧ (s ++ x :: r).dropWhile p = x :: r := by
  induction s with
  | nil => simp [List.takeWhile_cons, List.dropWhile_cons, hx]
  | cons c s' ih =>
    have hc : p c = true := hs c (by simp)
    have := ih fun d hd => hs d (by simp [hd])
    simp [List.takeWhile_cons, List.dropWhile_cons, hc, this.1, this.2]

lemma takeWhile_clean (s : List Char) (p : Char → Bool) (hs : ∀ c ∈ s, p c = true) :
    s.takeWhile p = s ∧ s.dropWhile p = [] := by
  induction s with
  | nil => simp
  | cons c s' ih =>
    have hc : p c = true := hs c (by simp)
    have := ih fun d hd => hs d (by simp [hd])
    simp [List.takeWhile_cons, List.dropWhile_cons, hc, this.1, this.2]

lemma csv_read_field_comma (s rest : List Char) :
    csv_read_field (csv_escape_field s ++ ',' :: rest) = (s, rest) := by
  unfold csv_escape_field
  split
  · have hsh : ('"' :: escBody s ++ ['"']) ++ ',' :: rest
        = '"' :: (escBody s ++ '"' :: (',' :: rest)) := by simp
    rw [hsh]
    simp only [csv_read_field]
    rw [if_pos trivial]
    rw [readQuotedBody_escBody s (',' :: rest) (by simp)]
    simp [dropToComma]
  · rename_i hnq
    push_neg at hnq
    rcases s with _ | ⟨c, s'⟩
    · simp only [List.nil_append, csv_read_field]
      rw [if_neg (by decide)]
      simp [List.takeWhile_cons, List.dropWhile_cons, notComma]
    · have hcq : c ≠ '"' := by
        intro he
        exact hnq.2 (by simp [he])
      have hclean : ∀ d ∈ c :: s', notComma d = true := by
        intro d hd
        simp only [notComma, decide_eq_true_eq]
        intro he
        subst he
        exact hnq.1 hd
      have hx : notComma ',' = false := by simp [notComma]
      have htw := takeWhile_clean_append (c :: s') ',' rest notComma hclean hx
      simp only [List.cons_append, csv_read_field]
      rw [if_neg hcq]
      simp only [← List.cons_append, htw.1, htw.2]
      simp

lemma csv_read_field_alone (s : List Char) :
    csv_read_field (csv_escape_field s) = (s, []) := by
  unfold csv_escape_field
  split
  · have hsh : ('"' :: escBody s ++ ['"']) = '"' :: (escBody s ++ '"' :: ([] : List Char)) := by
      simp
    rw [hsh]
    simp only [csv_read_field]
    rw [if_pos trivial]
    rw [readQuotedBody_escBody s [] (by simp)]
    simp [dropToComma]
  · rename_i hnq
    push_neg at hnq
    rcases s with _ | ⟨c, s'⟩
    · rfl
    · have hcq : c ≠ '"' := by
        intro he
        exact hnq.2 (by simp [he])
      have hclean : ∀ d ∈ c :: s', notComma d = true := by
        intro d hd
        simp only [notComma, decide_eq_true_eq]
        intro he
        subst he
        exact hnq.1 hd
      have htw := takeWhile_clean (c :: s') notComma hclean
      simp only [csv_read_field]
      rw [if_neg hcq]
      simp only [htw.1, htw.2]
      simp

lemma intRepr_chars (d : Int) : ∀ c ∈ intRepr d, c = '-' ∨ isDigitChar c = true := by
  unfold intRepr
  split
  · intro c hc
    rcases hc with _ | hc
    · exact Or.inl rfl
    · exact Or.inr (natRepr_all_digit _ c (by assumption))
  · intro c hc
    exact Or.inr (natRepr_all_digit _ c hc)

lemma intRepr_no_special (d : Int) : ',' ∉ intRepr d ∧ '"' ∉ intRepr d ∧ '\n' ∉ intRepr d := by
  refine ⟨fun hm => ?_, fun hm => ?_, fun hm => ?_⟩ <;>
    (rcases intRepr_chars d _ hm with h | h
     · exact absurd h (by decide)
     · revert h
       decide)

lemma csv_read_field_intRepr (d : Int) : csv_read_field (intRepr d) = (intRepr d, []) := by
  have h := csv_read_field_alone (intRepr d)
  unfold csv_escape_field at h
  rw [if_neg (by
    rintro (hm | hm)
    · exact (intRepr_no_special d).1 hm
    · exact (intRepr_no_special d).2.1 hm)] at h
  exact h

lemma parseLine_trackLine (t : Track) (h : t.title ≠ []) :
    parseLine (trackLine t) = some t := by
  unfold parseLine trackLine
  simp only [csv_read_field_comma, csv_read_field_intRepr]
  rw [if_neg h]
  rw [atoi_intRepr]

/-! ### Claim theorems (first group) -/

/-- C3: removing a valid index `i` from a collection of size `n` yields size
`n - 1`, keeps every element at a position `j < i` in place and shifts every
later element left by one; any index `≥ n` leaves the collection unchanged
(`size_t` indices cannot be negative). -/
theorem remove_track_at_spec (pl : List Track) (i : Nat) :
    (i < pl.length →
      (remove_track_at pl i).length = pl.length - 1 ∧
      (∀ j, j < i → (remove_track_at pl i)[j]? = pl[j]?) ∧
      (∀ j, i ≤ j → j < pl.length - 1 → (remove_track_at pl i)[j]? = pl[j + 1]?)) ∧
    (pl.length ≤ i → remove_track_at pl i = pl) := by
  constructor
  · intro h
    have hrw : remove_track_at pl i = pl.eraseIdx i := by
      unfold remove_track_at
      rw [if_neg (by omega)]
    have hlen : (pl.eraseIdx i).length = pl.length - 1 := by
      rw [List.length_eraseIdx]
      simp [h]
    refine ⟨by rw [hrw, hlen], ?_, ?_⟩
    · intro j hj
      have hj' : j < (pl.eraseIdx i).length := by omega
      have hjp : j < pl.length := by omega
      rw [hrw, List.getElem?_eq_getElem hj', List.getElem?_eq_getElem hjp,
        List.getElem_eraseIdx_of_lt pl i j hj' hj]
    · intro j hij hj
      have hj' : j < (pl.eraseIdx i).length := by omega
      have hjp : j + 1 < pl.length := by omega
      rw [hrw, List.getElem?_eq_getElem hj', List.getElem?_eq_getElem hjp,
        List.getElem_eraseIdx_of_ge pl i j hj' hij]
  · intro h
    unfold remove_track_at
    rw [if_pos (by omega)]

/-- Witness for `remove_track_at_spec` on a concrete three-track playlist. -/
theorem remove_track_at_spec_witness :
    ((1 : Nat) < 3 ∧
      (remove_track_at [⟨['a'], [], [], 1⟩, ⟨['b'], [], [], 2⟩, ⟨['c'], [], [], 3⟩] 1).length
        = 3 - 1) ∧
    ((3 : Nat) ≤ 5 ∧
      remove_track_at [⟨['a'], [], [], 1⟩, ⟨['b'], [], [], 2⟩, ⟨['c'], [], [], 3⟩] 5
        = [⟨['a'], [], [], 1⟩, ⟨['b'], [], [], 2⟩, ⟨['c'], [], [], 3⟩]) :=
  ⟨⟨by decide,
      ((remove_track_at_spec [⟨['a'], [], [], 1⟩, ⟨['b'], [], [], 2⟩, ⟨['c'], [], [], 3⟩] 1).1
        (by decide)).1⟩,
    ⟨by decide,
      (remove_track_at_spec [⟨['a'], [], [], 1⟩, ⟨['b'], [], [], 2⟩, ⟨['c'], [], [], 3⟩] 5).2
        (by decide)⟩⟩

/-- C4: `search_playlist` returns exactly the pairs `(i, t)` such that `t`
is the track at position `i` and the ASCII-lowered term occurs as a
substring of the lowered title, artist or album (OR semantics). -/
theorem search_playlist_spec (pl : List Track) (term : List Char) (i : Nat) (t : Track) :
    (i, t) ∈ search_playlist pl term ↔
      pl[i]? = some t ∧
      (str_tolower_copy term <:+: str_tolower_copy t.title ∨
       str_tolower_copy term <:+: str_tolower_copy t.artist ∨
       str_tolower_copy term <:+: str_tolower_copy t.album) := by
  unfold search_playlist
  rw [List.mem_filter]
  rw [List.mem_enum_iff_getElem?]
  simp [trackMatches, strstrFound, or_assoc]

/-- C10: the empty search term matches every track, so the search returns
the whole playlist with positions, in order. -/
theorem search_empty_term_all (pl : List Track) :
    search_playlist pl [] = pl.enum := by
  unfold search_playlist
  apply List.filter_eq_self.2
  intro p _
  simp [trackMatches, strstrFound, str_tolower_copy]

/-- C5: sorting by duration yields a reordering (a permutation) of the
collection in which every adjacent pair of durations is non-decreasing,
under the order induced by the integer-subtraction comparator. -/
theorem sortByDuration_spec (pl : List Track) :
    (sortByDuration pl).Perm pl ∧
    ∀ i : Nat, ∀ _hi : i < (sortByDuration pl).length,
      ∀ _hi1 : i + 1 < (sortByDuration pl).length,
      ((sortByDuration pl)[i]).duration ≤ ((sortByDuration pl)[i + 1]).duration := by
  constructor
  · exact List.perm_insertionSort durLE pl
  · intro i hi hi1
    have hs : List.Sorted durLE (sortByDuration pl) := by
      haveI : IsTotal Track durLE := ⟨fun a b => by unfold durLE cmp_duration; omega⟩
      haveI : IsTrans Track durLE := ⟨fun a b c h1 h2 => by
        unfold durLE cmp_duration at h1 h2 ⊢; omega⟩
      exact List.sorted_insertionSort durLE pl
    have := List.pairwise_iff_getElem.1 hs i (i + 1) hi hi1 (by omega)
    unfold durLE cmp_duration at this
    omega

/-- Witness for `sortByDuration_spec` on a concrete playlist. -/
theorem sortByDuration_spec_witness :
    (sortByDuration [⟨['a'], [], [], 5⟩, ⟨['b'], [], [], 2⟩]).Perm
        [⟨['a'], [], [], 5⟩, ⟨['b'], [], [], 2⟩] ∧
    (0 : Nat) < (sortByDuration [⟨['a'], [], [], 5⟩, ⟨['b'], [], [], 2⟩]).length ∧
    (0 + 1 : Nat) < (sortByDuration [⟨['a'], [], [], 5⟩, ⟨['b'], [], [], 2⟩]).length ∧
    ((sortByDuration [⟨['a'], [], [], 5⟩, ⟨['b'], [], [], 2⟩]).get ⟨0, by decide⟩).duration ≤
      ((sortByDuration [⟨['a'], [], [], 5⟩, ⟨['b'], [], [], 2⟩]).get ⟨1, by decide⟩).duration :=
  ⟨(sortByDuration_spec [⟨['a'], [], [], 5⟩, ⟨['b'], [], [], 2⟩]).1,
    by decide, by decide,
    (sortByDuration_spec [⟨['a'], [], [], 5⟩, ⟨['b'], [], [], 2⟩]).2 0 (by decide) (by decide)⟩

/-! ### Line splitting and record parsing -/

lemma lineSplit_append (x rest : List Char) (h : '\n' ∉ x) :
    lineSplit (x ++ '\n' :: rest) = x :: lineSplit rest := by
  induction x with
  | nil =>
    simp only [List.nil_append, lineSplit]
    rw [if_pos trivial]
  | cons c x' ih =>
    have hc : c ≠ '\n' := by
      intro he
      subst he
      exact h (by simp)
    have ih' := ih fun hm => h (by simp [hm])
    simp only [List.cons_append, lineSplit]
    rw [if_neg hc]
    rw [show x'.append ('\n' :: rest) = x' ++ '\n' :: rest from rfl]
    rw [ih']

lemma escBody_mem (s : List Char) (c : Char) (h : c ∈ escBody s) : c ∈ s := by
  unfold escBody at h
  rw [List.mem_flatMap] at h
  obtain ⟨d, hd, hcd⟩ := h
  by_cases hdq : d = '"'
  · subst hdq
    simp at hcd
    subst hcd
    exact hd
  · simp [hdq] at hcd
    subst hcd
    exact hd

lemma csv_escape_field_mem (s : List Char) (c : Char) (h : c ∈ csv_escape_field s) :
    c ∈ s ∨ c = '"' := by
  unfold csv_escape_field at h
  split at h
  · simp only [List.cons_append, List.mem_cons, List.mem_append, List.mem_singleton,
      List.not_mem_nil, or_false] at h
    rcases h with h | h | h
    · exact Or.inr h
    · exact Or.inl (escBody_mem s c h)
    · exact Or.inr h
  · exact Or.inl h

lemma trackLine_no_newline (t : Track)
    (h : '\n' ∉ t.title ∧ '\n' ∉ t.artist ∧ '\n' ∉ t.album) :
    '\n' ∉ trackLine t := by
  intro hm
  unfold trackLine at hm
  simp only [List.mem_append, List.mem_cons] at hm
  rcases hm with hm | hm | hm | hm | hm | hm
  · rcases csv_escape_field_mem _ _ hm with hx | hx
    · exact h.1 hx
    · exact absurd hx (by decide)
  · exact absurd hm (by decide)
  · rcases csv_escape_field_mem _ _ hm with hx | hx
    · exact h.2.1 hx
    · exact absurd hx (by decide)
  · exact absurd hm (by decide)
  · rcases csv_escape_field_mem _ _ hm with hx | hx
    · exact h.2.2 hx
    · exact absurd hx (by decide)
  · rcases hm with hm | hm
    · exact absurd hm (by decide)
    · exact (intRepr_no_special t.duration).2.2 hm

lemma header_no_newline : '\n' ∉ headerChars := by decide

lemma isHeaderLine_header : isHeaderLine headerChars = true := by decide

lemma lineSplit_save (pl : List Track)
    (h : ∀ t ∈ pl, '\n' ∉ t.title ∧ '\n' ∉ t.artist ∧ '\n' ∉ t.album) :
    lineSplit (pl.flatMap fun t => trackLine t ++ ['\n']) = pl.map trackLine := by
  induction pl with
  | nil => rfl
  | cons t pl' ih =>
    have ht := h t (by simp)
    rw [List.flatMap_cons]
    have hsh : (trackLine t ++ ['\n']) ++ (pl'.flatMap fun u => trackLine u ++ ['\n'])
        = trackLine t ++ '\n' :: (pl'.flatMap fun u => trackLine u ++ ['\n']) := by simp
    rw [hsh, lineSplit_append _ _ (trackLine_no_newline t ht),
      ih fun u hu => h u (by simp [hu])]
    simp

lemma decodeBody_map_trackLine (pl : List Track) (h : ∀ t ∈ pl, t.title ≠ []) :
    decodeBody (pl.map trackLine) = pl := by
  induction pl with
  | nil => rfl
  | cons t pl' ih =>
    rw [List.map_cons]
    unfold decodeBody at ih ⊢
    rw [List.filterMap_cons, parseLine_trackLine t (h t (by simp)),
      ih fun u hu => h u (by simp [hu])]

/-- C1 (amended): encoding then decoding reproduces the collection exactly,
provided fields are newline-free AND every title is nonempty; a track with
an empty title is dropped by the decoder (its record starts with an empty
first field), so the unamended claim fails. -/
theorem save_load_roundtrip (pl : List Track)
    (h : ∀ t ∈ pl, '\n' ∉ t.title ∧ '\n' ∉ t.artist ∧ '\n' ∉ t.album ∧ t.title ≠ []) :
    load_playlist_csv [] (save_playlist_csv pl) = (true, pl) := by
  unfold save_playlist_csv load_playlist_csv
  rw [lineSplit_append headerChars _ header_no_newline]
  rw [lineSplit_save pl fun t ht => ⟨(h t ht).1, (h t ht).2.1, (h t ht).2.2.1⟩]
  simp only [isHeaderLine_header, if_pos]
  rw [decodeBody_map_trackLine pl fun t ht => (h t ht).2.2.2]
  simp

/-- C1 counterexample: a track whose fields are newline-free (all empty or
plain) but whose title is empty does not survive the round trip — the
decoder skips its record entirely. -/
theorem save_load_roundtrip_cex :
    ('\n' ∉ ([] : List Char)) ∧
    (load_playlist_csv [] (save_playlist_csv [⟨[], ['a'], ['b'], 5⟩])).2
      ≠ [⟨[], ['a'], ['b'], 5⟩] := by decide

/-- Witness for `save_load_roundtrip` on the spec's two-track scenario. -/
theorem save_load_roundtrip_witness :
    (∀ t ∈ [(⟨"Song A".data, "Artist X".data, "Album 1".data, 125⟩ : Track),
        ⟨"Song B".data, "Artist Y".data, "Album 2".data, 340⟩],
      '\n' ∉ t.title ∧ '\n' ∉ t.artist ∧ '\n' ∉ t.album ∧ t.title ≠ []) ∧
    load_playlist_csv []
        (save_playlist_csv [⟨"Song A".data, "Artist X".data, "Album 1".data, 125⟩,
          ⟨"Song B".data, "Artist Y".data, "Album 2".data, 340⟩])
      = (true, [⟨"Song A".data, "Artist X".data, "Album 1".data, 125⟩,
          ⟨"Song B".data, "Artist Y".data, "Album 2".data, 340⟩]) :=
  ⟨by decide, save_load_roundtrip _ (by decide)⟩

/-- C2: a field containing a comma or a quote is encoded wrapped in quotes
with the internal quotes doubled, a field containing neither is written
literally, and in both cases the quote-aware reader decodes the encoded
field back to exactly the original text (consuming all of it). -/
theorem csv_escape_read_spec (s : List Char) :
    ((',' ∈ s ∨ '"' ∈ s) → csv_escape_field s = '"' :: escBody s ++ ['"']) ∧
    (¬(',' ∈ s ∨ '"' ∈ s) → csv_escape_field s = s) ∧
    csv_read_field (csv_escape_field s) = (s, []) := by
  refine ⟨?_, ?_, csv_read_field_alone s⟩
  · intro h
    unfold csv_escape_field
    rw [if_pos h]
  · intro h
    unfold csv_escape_field
    rw [if_neg h]

/-- Witness for `csv_escape_read_spec` on the spec's example field. -/
theorem csv_escape_read_spec_witness :
    (',' ∈ ("Say \"Hi\", Bye".data) ∨ '"' ∈ ("Say \"Hi\", Bye".data)) ∧
    csv_escape_field ("Say \"Hi\", Bye".data)
      = '"' :: escBody ("Say \"Hi\", Bye".data) ++ ['"'] ∧
    csv_read_field (csv_escape_field ("Say \"Hi\", Bye".data))
      = ("Say \"Hi\", Bye".data, []) :=
  ⟨Or.inl (by decide), (csv_escape_read_spec _).1 (Or.inl (by decide)),
    (csv_escape_read_spec _).2.2⟩

/-- C9: loading appends the decoded records after the existing tracks: the
result is the old collection followed by what the same text decodes to from
empty, and every previously held position is unchanged. -/
theorem load_appends (pl : List Track) (text : List Char) :
    (load_playlist_csv pl text).2 = pl ++ (load_playlist_csv [] text).2 ∧
    ∀ i : Nat, i < pl.length → (load_playlist_csv pl text).2[i]? = pl[i]? := by
  have hmain : (load_playlist_csv pl text).2 = pl ++ (load_playlist_csv [] text).2 := by
    unfold load_playlist_csv
    rcases hls : lineSplit text with _ | ⟨l, rest⟩
    · simp
    · simp
  refine ⟨hmain, ?_⟩
  intro i hi
  rw [hmain, List.getElem?_append]
  rw [if_pos hi]

/-- Witness for `load_appends` with one existing track and one decoded line. -/
theorem load_appends_witness :
    (load_playlist_csv [⟨['x'], [], [], 1⟩] ("a,b,c,2".data)).2
      = [⟨['x'], [], [], 1⟩] ++ (load_playlist_csv [] ("a,b,c,2".data)).2 ∧
    (0 : Nat) < 1 ∧
    (load_playlist_csv [⟨['x'], [], [], 1⟩] ("a,b,c,2".data)).2[0]?
      = [(⟨['x'], [], [], 1⟩ : Track)][0]? :=
  ⟨(load_appends [⟨['x'], [], [], 1⟩] ("a,b,c,2".data)).1, by decide,
    (load_appends [⟨['x'], [], [], 1⟩] ("a,b,c,2".data)).2 0 (by decide)⟩

/-- C8: the encoder always emits `title,artist,album,duration_seconds` as
the first line; the decoder treats a first line as a header — skipping it —
iff it contains both `"title"` and `"artist"` as substrings, and otherwise
parses it as a data record. -/
theorem header_spec (pl : List Track) (l body : List Char) (hnl : '\n' ∉ l) :
    (lineSplit (save_playlist_csv pl)).head? = some headerChars ∧
    isHeaderLine headerChars = true ∧
    (isHeaderLine l = true ↔ ("title".data <:+: l ∧ "artist".data <:+: l)) ∧
    (isHeaderLine l = true →
      (load_playlist_csv pl (l ++ '\n' :: body)).2 = pl ++ decodeBody (lineSplit body)) ∧
    (isHeaderLine l = false →
      (load_playlist_csv pl (l ++ '\n' :: body)).2
        = pl ++ decodeBody (l :: lineSplit body)) := by
  refine ⟨?_, isHeaderLine_header, ?_, ?_, ?_⟩
  · unfold save_playlist_csv
    rw [lineSplit_append headerChars _ header_no_newline]
    rfl
  · simp [isHeaderLine, strstrFound]
  · intro hh
    unfold load_playlist_csv
    rw [lineSplit_append l body hnl]
    simp [hh]
  · intro hh
    unfold load_playlist_csv
    rw [lineSplit_append l body hnl]
    simp [hh]

/-- Witness for `header_spec`: a non-header first line is kept as data. -/
theorem header_spec_witness :
    ('\n' ∉ ("a,b,c,7".data)) ∧
    (lineSplit (save_playlist_csv [])).head? = some headerChars ∧
    isHeaderLine ("a,b,c,7".data) = false ∧
    (load_playlist_csv [] ("a,b,c,7".data ++ '\n' :: [])).2
      = [] ++ decodeBody ("a,b,c,7".data :: lineSplit []) :=
  ⟨by decide, (header_spec [] ("a,b,c,7".data) [] (by decide)).1, by decide,
    (header_spec [] ("a,b,c,7".data) [] (by decide)).2.2.2.2 (by decide)⟩

/-! ### Graceful degradation of the decoder -/

lemma parseLine_first_empty (l : List Char) (h : (csv_read_field l).1 = []) :
    parseLine l = none := by
  unfold parseLine
  simp [h]

lemma parseLine_single_field (w : List Char) (hne : w ≠ [])
    (hw : ∀ c ∈ w, notComma c = true ∧ ¬c = '"') :
    parseLine w = some ⟨w, [], [], 0⟩ := by
  rcases w with _ | ⟨c, w'⟩
  · exact absurd rfl hne
  · have h1 : csv_read_field (c :: w') = (c :: w', []) := by
      have htw := takeWhile_clean (c :: w') notComma fun d hd => (hw d hd).1
      simp only [csv_read_field]
      rw [if_neg (hw c (by simp)).2]
      simp [htw.1, htw.2]
    unfold parseLine
    rw [h1]
    simp [csv_read_field, atoi]

lemma atoiDigits_nil_or_nondigit (acc : Nat) :
    atoiDigits acc [] = acc ∧
    ∀ c cs, isDigitChar c = false → atoiDigits acc (c :: cs) = acc := by
  refine ⟨rfl, fun c cs hc => ?_⟩
  simp [atoiDigits, hc]

lemma atoi_no_digit (s : List Char) (h : ∀ c ∈ s, isDigitChar c = false) : atoi s = 0 := by
  have hsub : ∀ c ∈ s.dropWhile isSpaceChar, isDigitChar c = false := fun c hc =>
    h c ((List.dropWhile_sublist isSpaceChar).subset hc)
  rcases hd : s.dropWhile isSpaceChar with _ | ⟨c, rest⟩
  · unfold atoi
    rw [hd]
  · rw [hd] at hsub
    have hred : atoi s = (if c = '-' then -(atoiDigits 0 rest : Int)
        else if c = '+' then (atoiDigits 0 rest : Int)
        else (atoiDigits 0 (c :: rest) : Int)) := by
      unfold atoi
      rw [hd]
    have hzero : atoiDigits 0 rest = 0 := by
      rcases rest with _ | ⟨c2, r2⟩
      · rfl
      · exact (atoiDigits_nil_or_nondigit 0).2 c2 r2 (hsub c2 (by simp))
    rw [hred]
    by_cases hm : c = '-'
    · rw [if_pos hm, hzero]
      rfl
    · rw [if_neg hm]
      by_cases hp : c = '+'
      · rw [if_pos hp, hzero]
        rfl
      · rw [if_neg hp]
        rw [(atoiDigits_nil_or_nondigit 0).2 c rest (hsub c (by simp))]
        rfl

/-- C7 (amended): for every nonempty input text the load succeeds (returns
the success flag) and degrades gracefully per-record — an empty first field
skips the record, a lone unquoted comma-free field parses with the missing
trailing fields defaulted to empty text and duration 0, and a duration text
with no digit parses to 0; on EMPTY input text, however, the first `fgets`
fails and the load reports failure (the same signal as an unopenable file),
leaving the collection unchanged — so decoding is not failure-free for
literally every input text. -/
theorem load_graceful (pl : List Track) (text : List Char) :
    (text ≠ [] → (load_playlist_csv pl text).1 = true) ∧
    (text = [] → load_playlist_csv pl text = (false, pl)) ∧
    (∀ l, (csv_read_field l).1 = [] → parseLine l = none) ∧
    (∀ w, w ≠ [] → (∀ c ∈ w, notComma c = true ∧ ¬c = '"') →
      parseLine w = some ⟨w, [], [], 0⟩) ∧
    (∀ s, (∀ c ∈ s, isDigitChar c = false) → atoi s = 0) := by
  refine ⟨?_, ?_, parseLine_first_empty, parseLine_single_field, atoi_no_digit⟩
  · intro hne
    unfold load_playlist_csv
    rcases hls : lineSplit text with _ | ⟨l, rest⟩
    · exfalso
      rcases text with _ | ⟨c, t⟩
      · exact hne rfl
      · rw [lineSplit] at hls
        by_cases hc : c = '\n'
        · rw [if_pos hc] at hls
          exact List.cons_ne_nil _ _ hls
        · rw [if_neg hc] at hls
          rcases hlt : lineSplit t with _ | ⟨l', ls'⟩
          · rw [hlt] at hls
            exact List.cons_ne_nil _ _ hls
          · rw [hlt] at hls
            exact List.cons_ne_nil _ _ hls
    · rfl
  · intro he
    subst he
    rfl

/-- C7 counterexample to the unamended claim: on empty input text the load
returns the failure flag (0 in C), exactly as for a file that cannot be
opened. -/
theorem load_empty_text_cex : load_playlist_csv [] [] = (false, []) := by rfl

/-- Witness for `load_graceful` on concrete malformed inputs: a lone
field line, an empty-first-field line and a digit-free duration text. -/
theorem load_graceful_witness :
    (("x".data : List Char) ≠ [] ∧ (load_playlist_csv [] ("x".data)).1 = true) ∧
    ((csv_read_field (",a".data)).1 = [] ∧ parseLine (",a".data) = none) ∧
    (("hello".data : List Char) ≠ [] ∧
      (∀ c ∈ ("hello".data : List Char), notComma c = true ∧ ¬c = '"') ∧
      parseLine ("hello".data) = some ⟨"hello".data, [], [], 0⟩) ∧
    ((∀ c ∈ ("n/a".data : List Char), isDigitChar c = false) ∧ atoi ("n/a".data) = 0) :=
  ⟨⟨by decide, (load_graceful [] ("x".data)).1 (by decide)⟩,
    ⟨by decide, (load_graceful [] []).2.2.1 (",a".data) (by decide)⟩,
    ⟨by decide, by decide,
      (load_graceful [] []).2.2.2.1 ("hello".data) (by decide) (by decide)⟩,
    ⟨by decide, (load_graceful [] []).2.2.2.2 ("n/a".data) (by decide)⟩⟩

/-! ### Shuffle: permutation, locality and choice-injectivity -/

lemma listSwap_length (l : List Track) (i j : Nat) : (listSwap l i j).length = l.length := by
  unfold listSwap
  split
  · simp
  · rfl

lemma listSwap_perm (l : List Track) (i j : Nat) : (listSwap l i j).Perm l := by
  unfold listSwap
  split
  · rename_i a b hi hj
    obtain ⟨hil, hia⟩ := List.getElem?_eq_some.1 hi
    obtain ⟨hjl, hjb⟩ := List.getElem?_eq_some.1 hj
    rcases eq_or_ne i j with rfl | hne
    · rw [List.set_set]
      have hset : l.set i a = l := by
        apply List.ext_getElem?
        intro n
        rcases eq_or_ne i n with rfl | hn
        · rw [List.getElem?_set_self hil, List.getElem?_eq_getElem hil, hia]
        · rw [List.getElem?_set_ne hn]
      rw [hset]
    · rw [List.perm_iff_count]
      intro x
      have hjl2 : j < (l.set i b).length := by simpa using hjl
      rw [List.count_set a x (l.set i b) j hjl2]
      rw [List.count_set b x l i hil]
      rw [List.getElem_set_ne hne hjl2, hjb, hia]
      have hxl : (if (a == x) = true then 1 else 0) ≤ List.count x l := by
        split
        · rename_i hax
          have hmem : x ∈ l := by
            have hal : a ∈ l := hia ▸ List.getElem_mem hil
            rwa [beq_iff_eq.1 hax] at hal
          have := List.count_pos_iff.2 hmem
          omega
        · omega
      generalize hA : (if (a == x) = true then 1 else 0) = A at hxl ⊢
      generalize hB : (if (b == x) = true then 1 else 0) = B
      omega
  · exact List.Perm.refl _

lemma listSwap_getElem?_of_ne (l : List Track) (i j k : Nat) (hki : k ≠ i) (hkj : k ≠ j) :
    (listSwap l i j)[k]? = l[k]? := by
  unfold listSwap
  split
  · rename_i a b hi hj
    rw [List.getElem?_set_ne (Ne.symm hkj), List.getElem?_set_ne (Ne.symm hki)]
  · rfl

lemma listSwap_getElem?_at_i (l : List Track) (i j : Nat) (hi : i < l.length)
    (hj : j < l.length) :
    (listSwap l i j)[i]? = l[j]? := by
  unfold listSwap
  rw [List.getElem?_eq_getElem hi, List.getElem?_eq_getElem hj]
  show ((l.set i (l.get ⟨j, hj⟩)).set j (l.get ⟨i, hi⟩))[i]? = some (l.get ⟨j, hj⟩)
  rcases eq_or_ne j i with rfl | hne
  · rw [List.getElem?_set_self (by simpa using hi)]
  · rw [List.getElem?_set_ne hne, List.getElem?_set_self hi]

lemma shuffleGo_perm (randv : Nat → Nat) : ∀ i : Nat, ∀ l : List Track,
    (shuffleGo randv i l).Perm l := by
  intro i
  induction i with
  | zero => intro l; exact List.Perm.refl l
  | succ i ih => intro l; exact (ih _).trans (listSwap_perm _ _ _)

lemma shuffleGo_length (randv : Nat → Nat) (i : Nat) (l : List Track) :
    (shuffleGo randv i l).length = l.length :=
  (shuffleGo_perm randv i l).length_eq

lemma shuffleGo_getElem?_of_gt (randv : Nat → Nat) : ∀ i : Nat, ∀ l : List Track, ∀ k : Nat,
    i < k → (shuffleGo randv i l)[k]? = l[k]? := by
  intro i
  induction i with
  | zero => intro l k hk; rfl
  | succ i ih =>
    intro l k hk
    have hstep : shuffleGo randv (i + 1) l
        = shuffleGo randv i (listSwap l (i + 1) (randv (i + 1) % (i + 2))) := rfl
    rw [hstep, ih _ k (by omega)]
    have hjle : randv (i + 1) % (i + 2) < i + 2 := Nat.mod_lt _ (by omega)
    exact listSwap_getElem?_of_ne l _ _ k (by omega) (by omega)

lemma shuffleGo_top (randv : Nat → Nat) (i : Nat) (l : List Track) (hlen : i + 1 < l.length) :
    (shuffleGo randv (i + 1) l)[i + 1]? = l[randv (i + 1) % (i + 2)]? := by
  have hstep : shuffleGo randv (i + 1) l
      = shuffleGo randv i (listSwap l (i + 1) (randv (i + 1) % (i + 2))) := rfl
  rw [hstep, shuffleGo_getElem?_of_gt randv i _ (i + 1) (by omega)]
  have hjlt : randv (i + 1) % (i + 2) < i + 2 := Nat.mod_lt _ (by omega)
  exact listSwap_getElem?_at_i l (i + 1) _ hlen (by omega)

lemma shuffleGo_inj_aux : ∀ i : Nat, ∀ l : List Track, ∀ r r' : Nat → Nat,
    l.Nodup → i < l.length →
    shuffleGo r i l = shuffleGo r' i l →
    ∀ k, 1 ≤ k → k ≤ i → r k % (k + 1) = r' k % (k + 1) := by
  intro i
  induction i with
  | zero => intro l r r' _ _ _ k h1 h2; omega
  | succ i ih =>
    intro l r r' hnd hlen heq k h1 h2
    have hjlt : r (i + 1) % (i + 2) < i + 2 := Nat.mod_lt _ (by omega)
    have hjlt' : r' (i + 1) % (i + 2) < i + 2 := Nat.mod_lt _ (by omega)
    have htop : l[r (i + 1) % (i + 2)]? = l[r' (i + 1) % (i + 2)]? := by
      have e1 := shuffleGo_top r i l hlen
      have e2 := shuffleGo_top r' i l hlen
      calc l[r (i + 1) % (i + 2)]? = (shuffleGo r (i + 1) l)[i + 1]? := e1.symm
        _ = (shuffleGo r' (i + 1) l)[i + 1]? := by rw [heq]
        _ = l[r' (i + 1) % (i + 2)]? := e2
    have hjj : r (i + 1) % (i + 2) = r' (i + 1) % (i + 2) :=
      List.getElem?_inj (by omega) hnd htop
    rcases Nat.lt_or_ge k (i + 1) with hk | hk
    · have e1 : shuffleGo r (i + 1) l
          = shuffleGo r i (listSwap l (i + 1) (r (i + 1) % (i + 2))) := rfl
      have e2 : shuffleGo r' (i + 1) l
          = shuffleGo r' i (listSwap l (i + 1) (r' (i + 1) % (i + 2))) := rfl
      have e2' : shuffleGo r' (i + 1) l
          = shuffleGo r' i (listSwap l (i + 1) (r (i + 1) % (i + 2))) := by
        rw [e2, hjj]
      have heq' : shuffleGo r i (listSwap l (i + 1) (r (i + 1) % (i + 2)))
          = shuffleGo r' i (listSwap l (i + 1) (r (i + 1) % (i + 2))) := by
        rw [← e1, ← e2']
        exact heq
      exact ih (listSwap l (i + 1) (r (i + 1) % (i + 2))) r r'
        (((listSwap_perm l (i + 1) (r (i + 1) % (i + 2))).nodup_iff).2 hnd)
        (by rw [listSwap_length]; omega) heq' k h1 (by omega)
    · have hk1 : k = i + 1 := by omega
      subst hk1
      exact hjj

/-- C6: the shuffle is the Fisher-Yates loop from the last index down to 1
with swap target `rand % (i + 1)`, a position at or before index `i`; for
any draw of random values the result is a permutation of the collection; a
collection of size 0 or 1 is left unchanged; and — the content of
uniformity — on a duplicate-free collection the map from the vector of
per-index choices to the resulting ordering is injective, while the number
of choice vectors equals `n!`, the number of orderings, so uniformly
distributed choices induce the uniform distribution on permutations. -/
theorem shuffle_playlist_spec :
    (∀ randv : Nat → Nat, ∀ pl : List Track,
      pl.length < 2 → shuffle_playlist randv pl = pl) ∧
    (∀ randv : Nat → Nat, ∀ pl : List Track, (shuffle_playlist randv pl).Perm pl) ∧
    (∀ randv : Nat → Nat, ∀ i : Nat, randv i % (i + 1) ≤ i) ∧
    (∀ n : Nat, ∀ l : List Track, l.Nodup → l.length = n →
      Function.Injective fun v : (k : Fin n) → Fin (k.val + 1) =>
        shuffleGo (fun k => if h : k < n then (v ⟨k, h⟩).val else 0) (n - 1) l) ∧
    (∀ n : Nat, Fintype.card ((k : Fin n) → Fin (k.val + 1)) = n.factorial) := by
  refine ⟨?_, ?_, ?_, ?_, ?_⟩
  · intro randv pl h
    unfold shuffle_playlist
    rw [if_pos h]
  · intro randv pl
    unfold shuffle_playlist
    split
    · exact List.Perm.refl _
    · exact shuffleGo_perm randv _ pl
  · intro randv i
    have := Nat.mod_lt (randv i) (show 0 < i + 1 by omega)
    omega
  · intro n l hnd hln v v' heq
    rcases n with _ | m
    · funext k
      exact absurd k.2 (Nat.not_lt_zero _)
    · simp only [Nat.add_sub_cancel] at heq
      have haux := shuffleGo_inj_aux m l
        (fun k => if h : k < m + 1 then (v ⟨k, h⟩).val else 0)
        (fun k => if h : k < m + 1 then (v' ⟨k, h⟩).val else 0)
        hnd (by omega) heq
      funext k
      rcases Nat.eq_zero_or_pos k.val with hk0 | hkpos
      · apply Fin.ext
        have hv : (v k).val < k.val + 1 := (v k).2
        have hv' : (v' k).val < k.val + 1 := (v' k).2
        omega
      · have hk := haux k.val hkpos (by omega)
        simp only [] at hk
        rw [dif_pos k.isLt, dif_pos k.isLt] at hk
        simp only [Fin.eta] at hk
        rw [Nat.mod_eq_of_lt (v k).2, Nat.mod_eq_of_lt (v' k).2] at hk
        exact Fin.ext hk
  · intro n
    rw [Fintype.card_pi]
    have h1 : ∀ k : Fin n, Fintype.card (Fin (k.val + 1)) = k.val + 1 := fun k =>
      Fintype.card_fin _
    calc (∏ k : Fin n, Fintype.card (Fin (k.val + 1)))
        = ∏ k : Fin n, (k.val + 1) := Finset.prod_congr rfl fun k _ => h1 k
      _ = ∏ k ∈ Finset.range n, (k + 1) := Fin.prod_univ_eq_prod_range (fun k => k + 1) n
      _ = n.factorial := Finset.prod_range_add_one_eq_factorial n

/-- Witness for `shuffle_playlist_spec` on concrete playlists. -/
theorem shuffle_playlist_spec_witness :
    (([(⟨['a'], [], [], 1⟩ : Track)] : List Track).length < 2 ∧
      shuffle_playlist (fun _ => 0) [(⟨['a'], [], [], 1⟩ : Track)]
        = [(⟨['a'], [], [], 1⟩ : Track)]) ∧
    (shuffle_playlist (fun _ => 7) [⟨['a'], [], [], 1⟩, ⟨['b'], [], [], 2⟩]).Perm
      [⟨['a'], [], [], 1⟩, ⟨['b'], [], [], 2⟩] ∧
    (([⟨['a'], [], [], 1⟩, ⟨['b'], [], [], 2⟩] : List Track).Nodup ∧
      Function.Injective fun v : (k : Fin 2) → Fin (k.val + 1) =>
        shuffleGo (fun k => if h : k < 2 then (v ⟨k, h⟩).val else 0) (2 - 1)
          [⟨['a'], [], [], 1⟩, ⟨['b'], [], [], 2⟩]) ∧
    Fintype.card ((k : Fin 3) → Fin (k.val + 1)) = Nat.factorial 3 :=
  ⟨⟨by decide, shuffle_playlist_spec.1 (fun _ => 0) _ (by decide)⟩,
    shuffle_playlist_spec.2.1 (fun _ => 7) _,
    ⟨by decide, shuffle_playlist_spec.2.2.2.1 2 _ (by decide) (by decide)⟩,
    shuffle_playlist_spec.2.2.2.2 3⟩

end PlaylistC
